/-
Verification of the lytt transcription / chunking / indexing pipeline.

Shallow embedding conventions:
- Rust `f64` time values are modelled as exact rationals (ℚ); `f32`
  embedding components are modelled as reals (ℝ) where the claims are
  about real arithmetic (cosine similarity).
- Rust `String` text is modelled as `List Char`, with the `str`
  operations used by the code (`split`, `trim`, `split_whitespace`,
  `join`) translated at the character level.
- Rust `u32`/`usize` are ℕ, `i32` is ℤ.
- External effects (LLM responses, tool executions, embeddings, fresh
  uuids) are oracle parameters: the functions below are the
  deterministic code around those calls.
-/
import Mathlib

namespace Lytt

/-! ## Character-level string primitives (Rust `str` operations) -/

/-- Rust `char::is_whitespace` (restricted to the ASCII whitespace the
tests exercise; Lean's `Char.isWhitespace`). -/
def isWs (c : Char) : Bool := c.isWhitespace

/-- Rust `str::split(pred)`: the (possibly empty) pieces between
separator characters.  `split "" = [""]`, `split "." = ["", ""]`. -/
def splitOnPred (p : Char → Bool) : List Char → List (List Char)
  | [] => [[]]
  | c :: rest =>
    if p c then [] :: splitOnPred p rest
    else
      match splitOnPred p rest with
      | [] => [[c]]
      | piece :: more => (c :: piece) :: more

/-- Rust `str::trim`: drop whitespace from both ends. -/
def trim (l : List Char) : List Char :=
  ((l.dropWhile isWs).reverse.dropWhile isWs).reverse

/-- Rust `str::split_whitespace`: maximal non-whitespace runs. -/
def splitWs (l : List Char) : List (List Char) :=
  (splitOnPred isWs l).filter (· ≠ [])

/-- Rust `Vec<&str>::join(" ")`. -/
def joinSpace (l : List (List Char)) : List Char :=
  List.intercalate [' '] l

/-! ## Transcription data model (src/transcription/models.rs) -/

/-- A single word with timing (`WhisperWord`; Rust fields `word`,
`start`, `end` — `end` is a Lean keyword, renamed `endTime`). -/
structure WhisperWord where
  word : List Char
  start : ℚ
  endTime : ℚ
deriving DecidableEq, Repr

/-- A fused segment from LLM fusion (`FusedSegment`). -/
structure FusedSegment where
  text : List Char
  start_seconds : ℚ
  end_seconds : ℚ
deriving DecidableEq, Repr

/-- A transcript segment (`TranscriptSegment`). -/
structure TranscriptSegment where
  start_seconds : ℚ
  end_seconds : ℚ
  text : List Char
deriving DecidableEq, Repr

/-- `impl From<FusedSegment> for TranscriptSegment`. -/
def FusedSegment.toTranscriptSegment (f : FusedSegment) : TranscriptSegment :=
  ⟨f.start_seconds, f.end_seconds, f.text⟩

/-- A complete transcript (`Transcript`). -/
structure Transcript where
  video_id : List Char
  segments : List TranscriptSegment
  full_text : List Char
  duration_seconds : ℚ
deriving DecidableEq, Repr

/-- `Transcript::new`: caches the space-joined full text and takes the
duration from the last segment's end (0 when there are no segments). -/
def Transcript.new (video_id : List Char) (segments : List TranscriptSegment) : Transcript :=
  { video_id := video_id
    segments := segments
    full_text := joinSpace (segments.map (·.text))
    duration_seconds := ((segments.getLast?).map (·.end_seconds)).getD 0 }

/-- `Transcript::text_between`: space-join of the segments fully
contained in `[start, end]`. -/
def Transcript.text_between (t : Transcript) (start «end» : ℚ) : List Char :=
  joinSpace
    ((t.segments.filter
        (fun s => decide (start ≤ s.start_seconds) && decide (s.end_seconds ≤ «end»))).map
      (·.text))

/-! ## Fallback alignment (src/transcription/fusion.rs, `align_by_position`) -/

/-- End time of the last word, 10.0 when there are none
(`words.last().map(|w| w.end).unwrap_or(10.0)`). -/
def lastWordEnd (words : List WhisperWord) : ℚ :=
  ((words.getLast?).map (·.endTime)).getD 10

/-- The sentence list: split the text on `.`/`!`/`?`, trim each piece,
keep the non-empty ones. -/
def sentencesOf (text : List Char) : List (List Char) :=
  ((splitOnPred (fun c => c = '.' || c = '!' || c = '?') text).map trim).filter (· ≠ [])

/-- The `for sentence in sentences` loop of `align_by_position`,
carrying the running `word_idx`. -/
def alignLoop (words : List WhisperWord) (total_words : Nat) (time_offset : ℚ) :
    List (List Char) → Nat → List FusedSegment
  | [], _ => []
  | sentence :: rest, word_idx =>
    let sentence_word_count := (splitWs sentence).length
    if sentence_word_count = 0 then
      alignLoop words total_words time_offset rest word_idx
    else
      let start_idx := min word_idx (total_words - 1)
      let end_idx := min (word_idx + sentence_word_count) total_words - 1
      let start := ((words[start_idx]?).map (·.start)).getD 0
      let e := ((words[end_idx]?).map (·.endTime)).getD (lastWordEnd words)
      { text := sentence ++ ['.']
        start_seconds := time_offset + start
        end_seconds := time_offset + max e (start + 0.1) } ::
        alignLoop words total_words time_offset rest (word_idx + sentence_word_count)

/-- The "ensure last segment extends to end" step: if the last
segment's end is more than one second before `segment_end`, extend it. -/
def applyExtension (segment_end : ℚ) : List FusedSegment → List FusedSegment
  | [] => []
  | [s] =>
    if s.end_seconds < segment_end - 1 then [{ s with end_seconds := segment_end }] else [s]
  | s :: rest => s :: applyExtension segment_end rest

/-- `TranscriptionProcessor::align_by_position` (deterministic fusion
fallback), translated from src/transcription/fusion.rs lines 223-284. -/
def align_by_position (words : List WhisperWord) (text : List Char) (time_offset : ℚ) :
    List FusedSegment :=
  if words = [] ∨ text = [] then
    [{ text := text, start_seconds := time_offset, end_seconds := time_offset + lastWordEnd words }]
  else
    let sentences := sentencesOf text
    if sentences = [] then
      [{ text := text, start_seconds := time_offset, end_seconds := time_offset + lastWordEnd words }]
    else
      applyExtension (time_offset + lastWordEnd words)
        (alignLoop words words.length time_offset sentences 0)

/-! Claim-side walk for C1 (from the spec's words, to be compared with
`align_by_position`). -/

/-- Start time of word `i`, index clamped to the last word. -/
def specWordStart (words : List WhisperWord) (i : Nat) : ℚ :=
  ((words[min i (words.length - 1)]?).map (·.start)).getD 0

/-- End time of word `i`, index clamped to the last word. -/
def specWordEnd (words : List WhisperWord) (i : Nat) : ℚ :=
  ((words[min i (words.length - 1)]?).map (·.endTime)).getD 0

/-- The walk as the (amended) claim states it: sentence `k` consumes
`N_k` word-timestamps, starts at `words[min(word_idx, last)].start` and
ends at `words[min(word_idx + N_k - 1, last)].end`, raised to
`start + 0.1` when smaller.  Sentences with no whitespace tokens
(unreachable after trimming/filtering) consume nothing. -/
def alignWalk (words : List WhisperWord) (offset : ℚ) :
    List (List Char) → Nat → List FusedSegment
  | [], _ => []
  | sentence :: rest, word_idx =>
    let n := (splitWs sentence).length
    if n = 0 then alignWalk words offset rest word_idx
    else
      let s := specWordStart words word_idx
      let e := specWordEnd words (word_idx + n - 1)
      { text := sentence ++ ['.']
        start_seconds := offset + s
        end_seconds := offset + max e (s + 0.1) } :: alignWalk words offset rest (word_idx + n)

/-- Extension step as the amended claim states it, phrased on the last
element via `dropLast`. -/
def specExtend (segment_end : ℚ) (l : List FusedSegment) : List FusedSegment :=
  match l.getLast? with
  | none => []
  | some s =>
    if s.end_seconds < segment_end - 1 then l.dropLast ++ [{ s with end_seconds := segment_end }]
    else l

/-- The aligned output as the amended claim describes it, for inputs
with at least one word and at least one sentence. -/
def alignSpec (words : List WhisperWord) (text : List Char) (offset : ℚ) : List FusedSegment :=
  specExtend (offset + lastWordEnd words) (alignWalk words offset (sentencesOf text) 0)

/-! ## Fusion merge (src/transcription/fusion.rs, `transcribe_with_language`)

The per-segment pipeline calls external models; its outputs (the
already offset-shifted `TranscriptSegment` lists per audio segment, in
completion order) are an oracle parameter.  What the code then does is
concatenate, sort by `start_seconds` and build the `Transcript`. -/

/-- The comparator of the final `all_segments.sort_by(...)`. -/
def segStartLe (a b : TranscriptSegment) : Bool := a.start_seconds ≤ b.start_seconds

/-- Deterministic tail of `TranscriptionProcessor::transcribe_with_language`:
concatenate the per-segment fused outputs, sort by start, build the
transcript. -/
def fusion_transcribe (media_id : List Char) (fused_outputs : List (List TranscriptSegment)) :
    Transcript :=
  Transcript.new media_id ((fused_outputs.flatten).mergeSort segStartLe)

/-! ## Chunking data model (src/chunking/mod.rs) -/

/-- `ContentChunk`. -/
structure ContentChunk where
  title : Option (List Char)
  content : List Char
  start_seconds : ℚ
  end_seconds : ℚ
  order : ℤ
  summary : Option (List Char)
deriving DecidableEq, Repr

/-- `ContentChunk::new` (summary starts out `None`). -/
def ContentChunk.new (title : Option (List Char)) (content : List Char)
    (start_seconds end_seconds : ℚ) (order : ℤ) : ContentChunk :=
  { title := title, content := content, start_seconds := start_seconds
    end_seconds := end_seconds, order := order, summary := none }

/-- `ChunkingConfig` (`u32` durations). -/
structure ChunkingConfig where
  target_duration : Nat
  min_duration : Nat
  max_duration : Nat
deriving DecidableEq, Repr

/-- `ChunkingStrategy`. -/
inductive ChunkingStrategy where
  | semantic
  | temporal
  | hybrid
deriving DecidableEq, Repr

/-! ## Temporal chunker (src/chunking/temporal.rs) -/

/-- One pass of the `while chunk_start < total_duration` loop of
`TemporalChunker::chunk`, by explicit fuel.  (For `target = 0` and a
positive duration the Rust loop never terminates; adequate fuel below
makes the model total, and all theorems assume `target > 0`.) -/
def temporalLoop (segments : List TranscriptSegment) (target_duration total_duration : ℚ) :
    Nat → ℚ → ℤ → List ContentChunk
  | 0, _, _ => []
  | fuel + 1, chunk_start, chunk_order =>
    if chunk_start < total_duration then
      let chunk_end := min (chunk_start + target_duration) total_duration
      let chunk_content :=
        joinSpace
          ((segments.filter
              (fun seg =>
                decide (seg.start_seconds < chunk_end) &&
                  decide (seg.end_seconds > chunk_start))).map
            (·.text))
      if trim chunk_content ≠ [] then
        ContentChunk.new none (trim chunk_content) chunk_start chunk_end chunk_order ::
          temporalLoop segments target_duration total_duration fuel chunk_end (chunk_order + 1)
      else temporalLoop segments target_duration total_duration fuel chunk_end chunk_order
    else []

/-- Fuel sufficient for the loop when `target_duration ≥ 1` (the `u32`
target is at least 1 whenever it is nonzero): the loop advances by
`target_duration` per round. -/
def temporalFuel (target_duration total_duration : ℚ) : Nat :=
  if target_duration ≤ 0 then 0 else (⌈total_duration / target_duration⌉).toNat + 1

/-- `TemporalChunker::chunk`. -/
def temporal_chunk (t : Transcript) (config : ChunkingConfig) : List ContentChunk :=
  if t.segments = [] then []
  else
    temporalLoop t.segments (config.target_duration : ℚ) t.duration_seconds
      (temporalFuel (config.target_duration : ℚ) t.duration_seconds) 0 0

/-! ## Semantic chunker (src/chunking/semantic.rs) -/

/-- An LLM-identified section (`LLMSection`). -/
structure LLMSection where
  title : List Char
  start_seconds : ℚ
  end_seconds : ℚ
  summary : Option (List Char)
deriving DecidableEq, Repr

/-- Merge `content` into the last chunk of the accumulator: append a
space and the content, extend the end (`chunks.last_mut()` branch). -/
def mergeIntoLast (content : List Char) (section_end : ℚ) : List ContentChunk → List ContentChunk
  | [] => []
  | [c] => [{ c with content := c.content ++ ' ' :: content, end_seconds := section_end }]
  | c :: rest => c :: mergeIntoLast content section_end rest

/-- The `for (order, section) in sections.into_iter().enumerate()` loop
of `SemanticChunker::build_chunks`. -/
def buildChunksGo (t : Transcript) (config : ChunkingConfig) :
    List (Nat × LLMSection) → List ContentChunk → List ContentChunk
  | [], chunks => chunks
  | (order, sec) :: rest, chunks =>
    let content := t.text_between sec.start_seconds sec.end_seconds
    if trim content = [] then buildChunksGo t config rest chunks
    else
      let duration := sec.end_seconds - sec.start_seconds
      if duration < (config.min_duration : ℚ) ∧ chunks ≠ [] then
        buildChunksGo t config rest (mergeIntoLast content sec.end_seconds chunks)
      else
        buildChunksGo t config rest
          (chunks ++
            [{ ContentChunk.new (some sec.title) content sec.start_seconds
                  sec.end_seconds (order : ℤ) with
                summary := sec.summary }])

/-- `SemanticChunker::build_chunks`. -/
def build_chunks (sections : List LLMSection) (t : Transcript) (config : ChunkingConfig) :
    List ContentChunk :=
  buildChunksGo t config sections.enum []

/-- `SemanticChunker::chunk`.  The LLM call and JSON parse are the
oracle: `some sections` is a parsed response, `none` a parse failure
(which falls back to the temporal chunker). -/
def semantic_chunk (llm_sections : Option (List LLMSection)) (t : Transcript)
    (config : ChunkingConfig) : List ContentChunk :=
  if t.segments = [] then []
  else if t.duration_seconds < (config.min_duration : ℚ) then
    [ContentChunk.new none t.full_text 0 t.duration_seconds 0]
  else
    match llm_sections with
    | some sections => build_chunks sections t config
    | none => temporal_chunk t config

/-- `create_chunker` dispatch (src/chunking/mod.rs): `Semantic` and
`Hybrid` both use the semantic chunker, `Temporal` the temporal one. -/
def chunk_with_strategy (strategy : ChunkingStrategy) (llm_sections : Option (List LLMSection))
    (t : Transcript) (config : ChunkingConfig) : List ContentChunk :=
  match strategy with
  | .semantic => semantic_chunk llm_sections t config
  | .temporal => temporal_chunk t config
  | .hybrid => semantic_chunk llm_sections t config

/-! ## Vector store (src/vector_store/mod.rs, sqlite.rs)

The `documents` table is modelled as a list of rows; uuids as ℕ.
RFC3339 timestamps are omitted (no claim touches them). -/

/-- A stored document (`Document`); `embedding` components as ℚ. -/
structure Document where
  id : Nat
  video_id : Nat
  video_title : List Char
  section_title : Option (List Char)
  content : List Char
  start_seconds : ℚ
  end_seconds : ℚ
  embedding : List ℚ
  chunk_order : ℤ
deriving DecidableEq, Repr

/-- `INSERT OR REPLACE` on the primary key `id`. -/
def upsertDoc (store : List Document) (doc : Document) : List Document :=
  (store.filter (fun d => d.id ≠ doc.id)) ++ [doc]

/-- `SqliteVectorStore::upsert_batch` (one transaction, row by row). -/
def upsert_batch (store : List Document) (docs : List Document) : List Document :=
  docs.foldl upsertDoc store

/-- `SqliteVectorStore::delete_by_video_id`:
`DELETE FROM documents WHERE video_id = ?1`. -/
def delete_by_video_id (store : List Document) (video_id : Nat) : List Document :=
  store.filter (fun d => d.video_id ≠ video_id)

/-- `SqliteVectorStore::get_by_video_id`:
`SELECT ... WHERE video_id = ?1 ORDER BY chunk_order`. -/
def get_by_video_id (store : List Document) (video_id : Nat) : List Document :=
  (store.filter (fun d => d.video_id = video_id)).mergeSort
    (fun a b => a.chunk_order ≤ b.chunk_order)

/-! ## Orchestrator indexing (src/orchestrator.rs) -/

/-- The documents built in `index_chunks` / `rechunk_media`: chunks
zipped with their embeddings and (fresh, oracle-supplied) uuids. -/
def documentsFrom (video_id : Nat) (video_title : List Char) (chunks : List ContentChunk)
    (embeddings : List (List ℚ)) (ids : List Nat) : List Document :=
  ((chunks.zip embeddings).zip ids).map
    (fun p =>
      { id := p.2
        video_id := video_id
        video_title := video_title
        section_title := p.1.1.title
        content := p.1.1.content
        start_seconds := p.1.1.start_seconds
        end_seconds := p.1.1.end_seconds
        embedding := p.1.2
        chunk_order := p.1.1.order })

/-- `Orchestrator::index_chunks` (the store-mutating part of
`process_media`): empty chunk lists return 0 untouched; otherwise
delete the media's documents, embed, and batch-upsert.  `embedder`
models `embed_batch`, `ids` the fresh uuids. -/
def index_chunks (store : List Document) (video_id : Nat) (video_title : List Char)
    (chunks : List ContentChunk) (embedder : List (List Char) → List (List ℚ))
    (ids : List Nat) : List Document × Nat :=
  if chunks = [] then (store, 0)
  else
    let store1 := delete_by_video_id store video_id
    let embeddings := embedder (chunks.map (·.content))
    let docs := documentsFrom video_id video_title chunks embeddings ids
    (upsert_batch store1 docs, docs.length)

/-- The store-mutating tail of `Orchestrator::rechunk_media`: unlike
`index_chunks`, the delete runs unconditionally before the upsert. -/
def rechunk_index (store : List Document) (video_id : Nat) (video_title : List Char)
    (chunks : List ContentChunk) (embedder : List (List Char) → List (List ℚ))
    (ids : List Nat) : List Document × Nat :=
  let store1 := delete_by_video_id store video_id
  let embeddings := embedder (chunks.map (·.content))
  let docs := documentsFrom video_id video_title chunks embeddings ids
  (upsert_batch store1 docs, docs.length)

/-! ## Cosine similarity (src/vector_store/mod.rs, `cosine_similarity`)

`f32` arithmetic is idealised over ℝ. -/

/-- `Σ a_i · b_i` over the zipped prefix. -/
def dotProduct (a b : List ℝ) : ℝ := (List.zipWith (· * ·) a b).sum

/-- `a.iter().map(|x| x * x).sum::<f32>().sqrt()`. -/
noncomputable def vecNorm (a : List ℝ) : ℝ := Real.sqrt ((a.map (fun x => x * x)).sum)

/-- `cosine_similarity`: 0 on length mismatch, empty input or a zero
norm, otherwise the normalised dot product. -/
noncomputable def cosine_similarity (a b : List ℝ) : ℝ :=
  if a.length ≠ b.length ∨ a = [] then 0
  else if vecNorm a = 0 ∨ vecNorm b = 0 then 0
  else dotProduct a b / (vecNorm a * vecNorm b)

/-! ## RAG chat history (src/rag/response.rs)

`conversation_history` holds only the user/assistant messages; the
system message is built fresh on every request and prepended to the
message list sent to the model. -/

/-- Chat message roles. -/
inductive Role where
  | system
  | user
  | assistant
deriving DecidableEq, Repr

/-- A chat message. -/
structure ChatMsg where
  role : Role
  content : List Char
deriving DecidableEq, Repr

/-- One `RagEngine::chat` turn's effect on `conversation_history`
(`answer` is the model's reply, an oracle): push the user message, push
the assistant message, and when the history exceeds 20 messages keep
only the most recent 20. -/
def chat_step (history : List ChatMsg) (user_content answer : List Char) : List ChatMsg :=
  let h := history ++ [⟨.user, user_content⟩, ⟨.assistant, answer⟩]
  if 20 < h.length then h.drop (h.length - 20) else h

/-- The message list actually sent to the model on a turn: the fresh
system message, then the stored history including the new user
message. -/
def chat_messages_sent (system_content : List Char) (history : List ChatMsg)
    (user_content : List Char) : List ChatMsg :=
  ⟨.system, system_content⟩ :: (history ++ [⟨.user, user_content⟩])

/-- `RagEngine::clear_history`: `self.conversation_history.clear()`. -/
def clear_history (_history : List ChatMsg) : List ChatMsg := []

/-! ## Agent loop (src/agent/runner.rs) -/

/-- A model-requested tool call. -/
structure ToolCall where
  id : List Char
  name : List Char
  arguments : List Char
deriving DecidableEq, Repr

/-- The model's message on one round: optional content and optional
tool-call list. -/
structure ModelMsg where
  content : Option (List Char)
  tool_calls : Option (List ToolCall)
deriving DecidableEq, Repr

/-- `ToolCallRecord`. -/
structure ToolCallRecord where
  name : List Char
  arguments : List Char
  result : List Char
deriving DecidableEq, Repr

/-- `AgentResponse`. -/
structure AgentResponse where
  content : List Char
  tool_calls : List ToolCallRecord
  iterations : Nat
deriving DecidableEq, Repr

/-- `Agent::execute_tool_call`: every parse/execution error is folded
into the textual result, so execution is a total oracle
`execute : ToolCall → List Char`. -/
def executeToolCall (execute : ToolCall → List Char) (tc : ToolCall) : ToolCallRecord :=
  ⟨tc.name, tc.arguments, execute tc⟩

/-- The error message of the exceeded-iterations failure. -/
def maxIterationsMsg (max_iterations : Nat) : List Char :=
  ("Agent exceeded maximum iterations (" ++ toString max_iterations ++ ")").toList

/-- The `loop` of `Agent::run`.  `oracle round` is the model's choice
on LLM round `round` (rounds are numbered from 1, as `iterations` is in
the code); the fuel counts the remaining allowed rounds, so fuel 0 is
exactly the `iterations > max_iterations` failure. -/
def agentRunAux (oracle : Nat → ModelMsg) (execute : ToolCall → List Char)
    (max_iterations : Nat) :
    Nat → Nat → List ToolCallRecord → Except (List Char) AgentResponse
  | 0, _, _ => .error (maxIterationsMsg max_iterations)
  | fuel + 1, round, records =>
    let resp := oracle round
    match resp.tool_calls with
    | some calls =>
      if calls = [] then .ok ⟨(resp.content).getD [], records, round⟩
      else
        agentRunAux oracle execute max_iterations fuel (round + 1)
          (records ++ calls.map (executeToolCall execute))
    | none => .ok ⟨(resp.content).getD [], records, round⟩

/-- `Agent::run` (the loop; the fixed system/user message preamble does
not influence the control flow modelled here). -/
def agent_run (oracle : Nat → ModelMsg) (execute : ToolCall → List Char)
    (max_iterations : Nat) : Except (List Char) AgentResponse :=
  agentRunAux oracle execute max_iterations max_iterations 1 []

/-- The tool calls the loop executes and records (the running
`tool_calls_made`), observed at exit — also on the failure path, where
`Agent::run` discards them. -/
def agentRecordsAux (oracle : Nat → ModelMsg) (execute : ToolCall → List Char) :
    Nat → Nat → List ToolCallRecord → List ToolCallRecord
  | 0, _, records => records
  | fuel + 1, round, records =>
    let resp := oracle round
    match resp.tool_calls with
    | some calls =>
      if calls = [] then records
      else
        agentRecordsAux oracle execute fuel (round + 1)
          (records ++ calls.map (executeToolCall execute))
    | none => records

/-- All tool calls executed (and pushed to `tool_calls_made`) during
`agent_run`. -/
def agent_records (oracle : Nat → ModelMsg) (execute : ToolCall → List Char)
    (max_iterations : Nat) : List ToolCallRecord :=
  agentRecordsAux oracle execute max_iterations 1 []

/-! ## Concrete example data -/

/-- The word-timestamp list of the spec's fusion-alignment scenario. -/
def exWords : List WhisperWord :=
  [⟨"Hello".toList, 0, 0.5⟩, ⟨"world".toList, 0.5, 1⟩, ⟨"this".toList, 1, 1.3⟩,
   ⟨"is".toList, 1.3, 1.5⟩, ⟨"a".toList, 1.5, 1.6⟩, ⟨"test".toList, 1.6, 2⟩]

/-- The text of the spec's fusion-alignment scenario. -/
def exText : List Char := "Hello world. This is a test.".toList

/-- Words where the text covers fewer timestamps than exist, so the
end-of-audio extension step fires. -/
def cexWords : List WhisperWord :=
  [⟨"Hello".toList, 0, 0.5⟩, ⟨"world".toList, 0.5, 1⟩, ⟨"again".toList, 1, 2.5⟩]

/-- A transcript whose second segment straddles the 10-second mark. -/
def demoT : Transcript :=
  Transcript.new ("t".toList) [⟨0, 4, "A".toList⟩, ⟨4, 12, "B".toList⟩]

/-- An LLM section covering `[0, 10]` of `demoT`. -/
def demoSection : LLMSection := ⟨"S".toList, 0, 10, none⟩

/-- Chunking config with a 10-second target and no minimum. -/
def demoCfg : ChunkingConfig := ⟨10, 0, 600⟩

/-- A previously ingested document for media 1. -/
def oldDoc : Document := ⟨1, 1, "T".toList, none, "old".toList, 0, 60, [1], 0⟩

/-- An embedder oracle mapping every text to the vector `[1]`. -/
def constEmbedder : List (List Char) → List (List ℚ) := fun texts => texts.map (fun _ => [1])

/-- A four-segment, 120-second transcript (30-second segments). -/
def cexT4 : Transcript :=
  Transcript.new ("t".toList)
    [⟨0, 30, ['A']⟩, ⟨30, 60, ['B']⟩, ⟨60, 90, ['C']⟩, ⟨90, 120, ['D']⟩]

/-- Config whose minimum duration (150) exceeds `cexT4`'s duration. -/
def cexCfg4 : ChunkingConfig := ⟨60, 150, 600⟩

/-- A 30-second single-segment transcript. -/
def exShortT : Transcript := Transcript.new ("t".toList) [⟨0, 30, ['A']⟩]

/-- A chunk to index. -/
def exChunk : ContentChunk := ContentChunk.new none ("new".toList) 0 30 0

/-- A model that requests the same tool call on every round. -/
def alwaysToolOracle : Nat → ModelMsg :=
  fun _ => ⟨none, some [⟨"1".toList, "search".toList, "q".toList⟩]⟩

/-- A model that immediately answers with no tool calls. -/
def finalOracle : Nat → ModelMsg := fun _ => ⟨some ("done".toList), none⟩

/-- A tool executor returning a fixed result. -/
def constExec : ToolCall → List Char := fun _ => "r".toList

/-- A transcript whose only segment's text is whitespace. -/
def wsT : Transcript := Transcript.new ("t".toList) [⟨0, 10, [' ']⟩]

/-- Config with `max ≥ min ≥ 0` (target 5, min 0, max 10). -/
def wsCfg : ChunkingConfig := ⟨5, 0, 10⟩

/-- Ten completed user/assistant chat turns (20 stored messages). -/
def cexHistory : List ChatMsg :=
  [⟨.user, "u1".toList⟩, ⟨.assistant, "a1".toList⟩, ⟨.user, "u2".toList⟩,
   ⟨.assistant, "a2".toList⟩, ⟨.user, "u3".toList⟩, ⟨.assistant, "a3".toList⟩,
   ⟨.user, "u4".toList⟩, ⟨.assistant, "a4".toList⟩, ⟨.user, "u5".toList⟩,
   ⟨.assistant, "a5".toList⟩, ⟨.user, "u6".toList⟩, ⟨.assistant, "a6".toList⟩,
   ⟨.user, "u7".toList⟩, ⟨.assistant, "a7".toList⟩, ⟨.user, "u8".toList⟩,
   ⟨.assistant, "a8".toList⟩, ⟨.user, "u9".toList⟩, ⟨.assistant, "a9".toList⟩,
   ⟨.user, "u10".toList⟩, ⟨.assistant, "a10".toList⟩]

/-! # Helper lemmas -/

theorem segStartLe_trans : ∀ a b c : TranscriptSegment,
    segStartLe a b = true → segStartLe b c = true → segStartLe a c = true := by
  intro a b c hab hbc
  simp only [segStartLe, decide_eq_true_eq] at *
  exact le_trans hab hbc

theorem segStartLe_total : ∀ a b : TranscriptSegment,
    (segStartLe a b || segStartLe b a) = true := by
  intro a b
  simp only [segStartLe, Bool.or_eq_true, decide_eq_true_eq]
  exact le_total _ _

/-! # Claim theorems -/

/-- C10: `Transcript::text_between` joins exactly the segments fully
contained in the window (`start ≤ seg.start` and `seg.end ≤ end`);
a boundary-straddling segment contributes nothing.  Consequently on
`demoT` (segments `[0,4]` "A" and `[4,12]` "B") an LLM section `[0,10]`
yields the semantic chunk "A" — segment B's text is silently dropped —
while the temporal chunker's `[0,10)` window includes every overlapping
segment and yields "A B". -/
theorem text_between_containment :
    (∀ (t : Transcript) (s e : ℚ),
        t.text_between s e =
          joinSpace
            ((t.segments.filter
                (fun sg => decide (s ≤ sg.start_seconds) && decide (sg.end_seconds ≤ e))).map
              (·.text))) ∧
    (demoT.text_between 0 10 = "A".toList) ∧
    (build_chunks [demoSection] demoT demoCfg =
      [⟨some ("S".toList), "A".toList, 0, 10, 0, none⟩]) ∧
    (temporal_chunk demoT demoCfg =
      [⟨none, "A B".toList, 0, 10, 0, none⟩, ⟨none, "B".toList, 10, 12, 1, none⟩]) := by
  refine ⟨fun t s e => rfl, ?_, ?_, ?_⟩
  · norm_num [demoT, Transcript.new, Transcript.text_between, joinSpace, List.intercalate,
      List.intersperse, List.filter]
  · have h1 : demoT.text_between 0 10 = "A".toList := by
      norm_num [demoT, Transcript.new, Transcript.text_between, joinSpace, List.intercalate,
        List.intersperse, List.filter]
    have h2 : ¬ trim ['A'] = [] := by decide
    norm_num [build_chunks, List.enum, buildChunksGo, h1, h2, demoSection, demoCfg,
      ContentChunk.new]
  · have hceil : (⌈(6:ℚ)/5⌉ : ℤ) = 2 := by
      rw [Int.ceil_eq_iff]
      norm_num
    have htn : (⌈(6:ℚ)/5⌉ : ℤ).toNat = 2 := by rw [hceil]; rfl
    have hfuel : temporalFuel ((10:Nat) : ℚ) ((12:ℚ)) = 3 := by
      rw [temporalFuel]
      rw [if_neg (by norm_num)]
      norm_num [htn]
    have htA : trim ['A', ' ', 'B'] = ['A', ' ', 'B'] := by decide
    have htB : trim ['B'] = ['B'] := by decide
    simp only [temporal_chunk, demoT, demoCfg, Transcript.new]
    norm_num [hfuel, htn, temporalLoop, List.filter, joinSpace, List.intercalate,
      List.intersperse, htA, htB, ContentChunk.new, List.cons_ne_nil]

/-- C2 (amended): every `Transcript` returned by the fusion engine has
its segments sorted by `start_seconds`, its `duration_seconds` equal to
the last segment's end (0 when empty), and its `full_text` equal to the
space-join of the segment texts.  (Non-overlap of consecutive segments
is NOT guaranteed: the code only sorts the LLM-fused segments, see the
counterexample.) -/
theorem fusion_transcribe_wellformed :
    ∀ (media_id : List Char) (fused_outputs : List (List TranscriptSegment)),
      (fusion_transcribe media_id fused_outputs).segments.Pairwise
        (fun a b => a.start_seconds ≤ b.start_seconds) ∧
      (fusion_transcribe media_id fused_outputs).full_text =
        joinSpace ((fusion_transcribe media_id fused_outputs).segments.map (·.text)) ∧
      (fusion_transcribe media_id fused_outputs).duration_seconds =
        ((((fusion_transcribe media_id fused_outputs).segments.getLast?).map
            (·.end_seconds)).getD 0) ∧
      (fusion_transcribe media_id fused_outputs).video_id = media_id := by
  intro media_id outputs
  refine ⟨?_, rfl, rfl, rfl⟩
  have h := List.sorted_mergeSort segStartLe_trans segStartLe_total (outputs.flatten)
  exact h.imp (fun hab => by simpa [segStartLe] using hab)

/-- C2 counterexample: a fusion run whose (LLM-produced) fused segments
overlap yields a returned `Transcript` whose consecutive segments
violate `seg_i.end ≤ seg_{i+1}.start`: the segments are
`(0,5)` then `(1,6)` and `5 ≤ 1` fails. -/
theorem fusion_transcribe_overlap_cex :
    ((fusion_transcribe ("m".toList)
        [[⟨0, 5, ['a']⟩, ⟨1, 6, ['b']⟩]]).segments.map
      (fun s => (s.start_seconds, s.end_seconds)) = [(0, 5), (1, 6)]) ∧
    ¬ ((5 : ℚ) ≤ 1) := by
  constructor
  · have hs : List.mergeSort [(⟨0, 5, ['a']⟩ : TranscriptSegment), ⟨1, 6, ['b']⟩]
        segStartLe = [⟨0, 5, ['a']⟩, ⟨1, 6, ['b']⟩] := by
      apply List.mergeSort_of_sorted
      norm_num [segStartLe]
    simp [fusion_transcribe, Transcript.new, hs]
  · norm_num

/-- C9 (amended): when the chunker returns no chunks, `index_chunks`
(the `process_media` path) returns 0 with the store untouched — no
delete, no embed, no upsert; but the `rechunk_media` path deletes the
media's documents unconditionally before writing, so an empty chunk
list there leaves the store with that media's documents removed. -/
theorem index_chunks_empty_frame :
    ∀ (store : List Document) (vid : Nat) (title : List Char)
      (embedder : List (List Char) → List (List ℚ)) (ids : List Nat),
      index_chunks store vid title [] embedder ids = (store, 0) ∧
      rechunk_index store vid title [] embedder ids = (delete_by_video_id store vid, 0) := by
  intro store vid title embedder ids
  constructor
  · simp [index_chunks]
  · simp [rechunk_index, documentsFrom, upsert_batch]

/-- C9 counterexample: rechunking media 1 with an empty chunk list
deletes the previously stored document — `get_by_media` afterwards is
empty, not the untouched `[oldDoc]` the claim asserts. -/
theorem rechunk_empty_deletes_cex :
    get_by_video_id (rechunk_index [oldDoc] 1 ("T".toList) [] constEmbedder []).1 1 = [] ∧
    get_by_video_id [oldDoc] 1 = [oldDoc] := by
  constructor
  · simp [rechunk_index, documentsFrom, upsert_batch, delete_by_video_id, get_by_video_id,
      oldDoc, List.filter]
  · have hs : List.mergeSort [oldDoc] (fun a b => a.chunk_order ≤ b.chunk_order) = [oldDoc] := by
      apply List.mergeSort_of_sorted
      simp
    simp [get_by_video_id, oldDoc, List.filter, hs]

/-- C7 (amended): the stored chat history never contains the system
message (it is prepended fresh at each request).  After a turn the
stored history is the most recent `min(n+2, 20)` messages of the old
history plus the new user/assistant pair, in original temporal order —
i.e. when it would exceed 20, the most recent 20 are kept, not a system
message plus 19.  `clear_history()` empties the stored history, so the
next request sends just the system message plus the new user message. -/
theorem chat_history_trim :
    ∀ (history : List ChatMsg) (u a sys : List Char),
      chat_step history u a =
        (history ++ [ChatMsg.mk .user u, ChatMsg.mk .assistant a]).drop
          (history.length + 2 - 20) ∧
      (chat_step history u a).length = min (history.length + 2) 20 ∧
      clear_history history = [] ∧
      chat_messages_sent sys (clear_history history) u =
        [ChatMsg.mk .system sys, ChatMsg.mk .user u] := by
  intro history u a sys
  refine ⟨?_, ?_, rfl, rfl⟩
  · rw [chat_step]
    by_cases h : 20 <
        (history ++ [ChatMsg.mk .user u, ChatMsg.mk .assistant a] : List ChatMsg).length
    · rw [if_pos h]
      simp
    · rw [if_neg h]
      simp at h
      have h0 : history.length + 2 - 20 = 0 := by omega
      simp [h0]
  · rw [chat_step]
    by_cases h : 20 <
        (history ++ [ChatMsg.mk .user u, ChatMsg.mk .assistant a] : List ChatMsg).length
    · rw [if_pos h]
      simp at h ⊢
      omega
    · rw [if_neg h]
      simp at h ⊢
      omega

/-- C7 counterexample: after the 11th turn on a 20-message history the
retained history has 20 messages (not a system message plus the most
recent 19): its head is the user message "u2", and no retained message
has the system role. -/
theorem chat_history_trim_cex :
    (chat_step cexHistory ("u11".toList) ("a11".toList)).length = 20 ∧
    (chat_step cexHistory ("u11".toList) ("a11".toList)).head? =
      some ⟨Role.user, "u2".toList⟩ ∧
    ((chat_step cexHistory ("u11".toList) ("a11".toList)).all
      (fun m => m.role ≠ Role.system)) = true := by
  refine ⟨by decide, by decide, by decide⟩

/-- C4 (amended): a non-empty transcript shorter than `min_duration`
yields one chunk spanning the whole transcript under the `semantic` and
`hybrid` strategies (both dispatch to the semantic chunker), for every
possible LLM outcome.  The `temporal` strategy has no such rule — see
the counterexample. -/
theorem short_transcript_single_chunk :
    ∀ (llm : Option (List LLMSection)) (t : Transcript) (config : ChunkingConfig),
      t.segments ≠ [] → t.duration_seconds < (config.min_duration : ℚ) →
      chunk_with_strategy .semantic llm t config =
          [ContentChunk.new none t.full_text 0 t.duration_seconds 0] ∧
      chunk_with_strategy .hybrid llm t config =
          [ContentChunk.new none t.full_text 0 t.duration_seconds 0] := by
  intro llm t config h1 h2
  constructor
  · simp [chunk_with_strategy, semantic_chunk, h1, h2]
  · simp [chunk_with_strategy, semantic_chunk, h1, h2]

/-- C4 witness: the general theorem applied to a concrete 30-second
transcript with a 60-second minimum. -/
theorem short_transcript_single_chunk_witness :
    exShortT.segments ≠ [] ∧
    exShortT.duration_seconds < (((⟨180, 60, 600⟩ : ChunkingConfig).min_duration : Nat) : ℚ) ∧
    chunk_with_strategy .semantic none exShortT ⟨180, 60, 600⟩ =
      [ContentChunk.new none exShortT.full_text 0 exShortT.duration_seconds 0] :=
  ⟨by decide, by norm_num [exShortT, Transcript.new],
    (short_transcript_single_chunk none exShortT ⟨180, 60, 600⟩ (by decide)
      (by norm_num [exShortT, Transcript.new])).1⟩

/-- C4 counterexample: the 120-second transcript `cexT4` is shorter
than the 150-second minimum, yet the `temporal` strategy returns 2
chunks, not one chunk spanning the whole transcript. -/
theorem short_transcript_temporal_cex :
    (chunk_with_strategy .temporal none cexT4 cexCfg4).length = 2 ∧
    cexT4.segments ≠ [] ∧
    cexT4.duration_seconds < ((cexCfg4.min_duration : Nat) : ℚ) ∧
    (2 : Nat) ≠ 1 := by
  refine ⟨?_, by decide, by norm_num [cexT4, Transcript.new, cexCfg4], by decide⟩
  have hfuel : temporalFuel ((60:Nat) : ℚ) ((120:ℚ)) = 3 := by
    rw [temporalFuel]
    rw [if_neg (by norm_num)]
    norm_num
    decide
  have ht1 : trim ['A', ' ', 'B'] = ['A', ' ', 'B'] := by decide
  have ht2 : trim ['C', ' ', 'D'] = ['C', ' ', 'D'] := by decide
  simp only [chunk_with_strategy, temporal_chunk, cexT4, cexCfg4, Transcript.new]
  norm_num [hfuel, temporalLoop, List.filter, joinSpace, List.intercalate,
    List.intersperse, ht1, ht2, ContentChunk.new, List.cons_ne_nil]

theorem zip_snd_sublist {α β : Type} : ∀ (l : List α) (ids : List β),
    (((l.zip ids).map Prod.snd)).Sublist ids := by
  intro l
  induction l with
  | nil => intro ids; simp
  | cons x xs ih =>
    intro ids
    cases ids with
    | nil => simp
    | cons i is =>
      simpa using (ih is).cons₂ i

theorem upsertDoc_fresh (s : List Document) (doc : Document)
    (h : ∀ d ∈ s, d.id ≠ doc.id) : upsertDoc s doc = s ++ [doc] := by
  rw [upsertDoc, List.filter_eq_self.mpr]
  intro d hd
  simpa using h d hd

theorem upsert_batch_fresh : ∀ (docs : List Document) (s : List Document),
    (∀ d ∈ docs, ∀ x ∈ s, x.id ≠ d.id) → ((docs.map (·.id)).Nodup) →
    upsert_batch s docs = s ++ docs := by
  intro docs
  induction docs with
  | nil => intro s _ _; simp [upsert_batch]
  | cons d ds ih =>
    intro s hfresh hnd
    rw [List.map_cons, List.nodup_cons] at hnd
    have h1 : upsert_batch s (d :: ds) = upsert_batch (upsertDoc s d) ds := rfl
    rw [h1, upsertDoc_fresh s d (fun x hx => hfresh d (List.mem_cons_self d ds) x hx)]
    have hf : ∀ e ∈ ds, ∀ x ∈ s ++ [d], x.id ≠ e.id := by
      intro e he x hx
      rcases List.mem_append.mp hx with hx | hx
      · exact hfresh e (List.mem_cons_of_mem d he) x hx
      · simp at hx
        subst hx
        intro hcontra
        exact hnd.1 (hcontra ▸ List.mem_map_of_mem (·.id) he)
    rw [ih (s ++ [d]) hf hnd.2]
    simp

theorem documentsFrom_ids (vid : Nat) (title : List Char) (chunks : List ContentChunk)
    (embeddings : List (List ℚ)) (ids : List Nat) :
    ((documentsFrom vid title chunks embeddings ids).map (·.id)).Sublist ids := by
  have h : (documentsFrom vid title chunks embeddings ids).map (·.id) =
      ((chunks.zip embeddings).zip ids).map Prod.snd := by
    simp [documentsFrom, List.map_map]
  rw [h]
  exact zip_snd_sublist _ _

theorem documentsFrom_vid (vid : Nat) (title : List Char) (chunks : List ContentChunk)
    (embeddings : List (List ℚ)) (ids : List Nat) :
    ∀ d ∈ documentsFrom vid title chunks embeddings ids, d.video_id = vid := by
  intro d hd
  obtain ⟨p, hp, heq⟩ := List.mem_map.mp hd
  rw [← heq]

/-- C5 (amended): after indexing a non-empty chunk list for media
`vid` (with fresh, pairwise-distinct uuids), `get_by_media(vid)`
returns exactly the newly indexed documents and no document from the
previous ingest survives.  When the chunker output is empty the
delete-then-write step does not run and the old documents survive —
see the counterexample. -/
theorem replace_semantics :
    ∀ (store : List Document) (vid : Nat) (title : List Char) (chunks : List ContentChunk)
      (embedder : List (List Char) → List (List ℚ)) (ids : List Nat),
      chunks ≠ [] → ids.Nodup → (∀ d ∈ store, d.id ∉ ids) →
      (get_by_video_id (index_chunks store vid title chunks embedder ids).1 vid).Perm
        (documentsFrom vid title chunks (embedder (chunks.map (·.content))) ids) ∧
      (∀ d ∈ store, d.video_id = vid →
        d ∉ (index_chunks store vid title chunks embedder ids).1) := by
  intro store vid title chunks embedder ids hne hnodup hfresh
  set docs := documentsFrom vid title chunks (embedder (chunks.map (·.content))) ids with hdocs
  have hids : (docs.map (·.id)).Sublist ids := documentsFrom_ids _ _ _ _ _
  have hsub : ∀ d ∈ docs, d.id ∈ ids := by
    intro d hd
    exact hids.subset (List.mem_map_of_mem (·.id) hd)
  have hvid : ∀ d ∈ docs, d.video_id = vid := documentsFrom_vid _ _ _ _ _
  have hstep : (index_chunks store vid title chunks embedder ids).1 =
      delete_by_video_id store vid ++ docs := by
    rw [index_chunks, if_neg hne]
    exact upsert_batch_fresh docs (delete_by_video_id store vid)
      (fun d hd x hx => by
        have hxs : x ∈ store := List.mem_of_mem_filter hx
        intro hcontra
        exact hfresh x hxs (hcontra ▸ hsub d hd))
      (hnodup.sublist hids)
  constructor
  · rw [hstep, get_by_video_id]
    have hfilter : ((delete_by_video_id store vid ++ docs).filter
        (fun d => d.video_id = vid)) = docs := by
      rw [List.filter_append]
      have h1 : (delete_by_video_id store vid).filter (fun d => d.video_id = vid) = [] := by
        rw [List.filter_eq_nil_iff]
        intro x hx
        have := List.of_mem_filter hx
        simp at this ⊢
        exact this
      have h2 : docs.filter (fun d => d.video_id = vid) = docs := by
        rw [List.filter_eq_self]
        intro d hd
        simp [hvid d hd]
      rw [h1, h2, List.nil_append]
    rw [hfilter]
    exact List.mergeSort_perm docs _
  · intro d hd hdv
    rw [hstep]
    intro hmem
    rcases List.mem_append.mp hmem with hx | hx
    · have := List.of_mem_filter hx
      simp at this
      exact this hdv
    · exact hfresh d hd (hsub d hx)

/-- C5 witness: the theorem applied to a store holding one old document
for media 1, one new chunk, and the fresh uuid 7. -/
theorem replace_semantics_witness :
    (([exChunk] : List ContentChunk) ≠ [] ∧ ([7] : List Nat).Nodup ∧
      (∀ d ∈ [oldDoc], d.id ∉ ([7] : List Nat))) ∧
    ((get_by_video_id (index_chunks [oldDoc] 1 ("T".toList) [exChunk] constEmbedder [7]).1
        1).Perm
      (documentsFrom 1 ("T".toList) [exChunk] (constEmbedder ([exChunk].map (·.content)))
        [7]) ∧
      (∀ d ∈ [oldDoc], d.video_id = 1 →
        d ∉ (index_chunks [oldDoc] 1 ("T".toList) [exChunk] constEmbedder [7]).1)) :=
  ⟨⟨by decide, by decide, by decide⟩,
    replace_semantics [oldDoc] 1 ("T".toList) [exChunk] constEmbedder [7] (by decide)
      (by decide) (by decide)⟩

/-- C5 counterexample: with force=true but a chunker that returns no
chunks, `process_media` succeeds yet `get_by_media` still returns the
old document — not "exactly the newly-indexed chunks" (none), so the
replace claim fails "for every possible output of the chunker". -/
theorem replace_semantics_empty_cex :
    (index_chunks [oldDoc] 1 ("T".toList) [] constEmbedder []).1 = [oldDoc] ∧
    get_by_video_id (index_chunks [oldDoc] 1 ("T".toList) [] constEmbedder []).1 1 =
      [oldDoc] := by
  have h : index_chunks [oldDoc] 1 ("T".toList) [] constEmbedder [] = ([oldDoc], 0) := by
    simp [index_chunks]
  refine ⟨by rw [h], ?_⟩
  rw [h]
  have hs : List.mergeSort [oldDoc] (fun a b => a.chunk_order ≤ b.chunk_order) = [oldDoc] := by
    apply List.mergeSort_of_sorted
    simp
  simp [get_by_video_id, oldDoc, List.filter, hs]

theorem agentRunAux_ok_iterations
    (oracle : Nat → ModelMsg) (execute : ToolCall → List Char) (m : Nat) :
    ∀ (fuel round : Nat) (records : List ToolCallRecord) (r : AgentResponse),
      agentRunAux oracle execute m fuel round records = .ok r → r.iterations < round + fuel := by
  intro fuel
  induction fuel with
  | zero =>
    intro round records r h
    simp [agentRunAux] at h
  | succ fuel ih =>
    intro round records r h
    rw [agentRunAux] at h
    rcases hc : (oracle round).tool_calls with _ | calls
    · rw [hc] at h
      simp at h
      subst h
      simp
    · rw [hc] at h
      simp only at h
      by_cases he : calls = []
      · rw [if_pos he] at h
        simp at h
        subst h
        simp
      · rw [if_neg he] at h
        have := ih (round + 1) _ r h
        omega

/-- C8: `Agent::run` performs at most `max_iterations` LLM rounds and
always terminates: every successful run reports `iterations ≤ max`;
against a model that requests a tool call on every round, a run with
`max_iterations = 3` fails with the agent error "Agent exceeded maximum
iterations (3)" after exactly 3 rounds, each executed tool call having
been recorded (pushed to `tool_calls_made`, observed by
`agent_records`); a round whose response requests no tool calls returns
the final response instead. -/
theorem agent_run_bounded :
    (∀ (oracle : Nat → ModelMsg) (execute : ToolCall → List Char) (m : Nat)
        (r : AgentResponse), agent_run oracle execute m = .ok r → r.iterations ≤ m) ∧
    agent_run alwaysToolOracle constExec 3 = .error (maxIterationsMsg 3) ∧
    agent_records alwaysToolOracle constExec 3 =
      [⟨"search".toList, "q".toList, "r".toList⟩, ⟨"search".toList, "q".toList, "r".toList⟩,
       ⟨"search".toList, "q".toList, "r".toList⟩] ∧
    agent_run finalOracle constExec 3 = .ok ⟨"done".toList, [], 1⟩ := by
  refine ⟨?_, by rfl, by rfl, by rfl⟩
  intro oracle execute m r h
  have := agentRunAux_ok_iterations oracle execute m m 1 [] r h
  omega

/-- C8 witness: the bound applied to the concrete immediate-answer
run. -/
theorem agent_run_bounded_witness :
    agent_run finalOracle constExec 3 = .ok ⟨"done".toList, [], 1⟩ ∧
    (⟨"done".toList, [], 1⟩ : AgentResponse).iterations ≤ 3 :=
  ⟨rfl, agent_run_bounded.1 finalOracle constExec 3 ⟨"done".toList, [], 1⟩ rfl⟩

theorem sumSq_nonneg (a : List ℝ) : 0 ≤ (a.map (fun x => x * x)).sum := by
  induction a with
  | nil => simp
  | cons x xs ih =>
    simp only [List.map_cons, List.sum_cons]
    exact add_nonneg (mul_self_nonneg x) ih

theorem dot_sq_le_sumSq_mul : ∀ (a b : List ℝ),
    (dotProduct a b) ^ 2 ≤ ((a.map (fun x => x * x)).sum) * ((b.map (fun x => x * x)).sum) := by
  intro a
  induction a with
  | nil =>
    intro b
    simp [dotProduct]
  | cons x xs ih =>
    intro b
    cases b with
    | nil =>
      simp [dotProduct]
    | cons y ys =>
      have hd := ih ys
      have hA := sumSq_nonneg xs
      have hB := sumSq_nonneg ys
      have hstep : dotProduct (x :: xs) (y :: ys) = x * y + dotProduct xs ys := by
        simp [dotProduct]
      have hsx : ((x :: xs).map (fun t => t * t)).sum = x * x + (xs.map (fun t => t * t)).sum := by
        simp
      have hsy : ((y :: ys).map (fun t => t * t)).sum = y * y + (ys.map (fun t => t * t)).sum := by
        simp
      rw [hstep, hsx, hsy]
      set d := dotProduct xs ys with hd_def
      set A := (xs.map (fun t => t * t)).sum with hA_def
      set B := (ys.map (fun t => t * t)).sum with hB_def
      rcases eq_or_lt_of_le hB with hB0 | hBpos
      · rw [← hB0] at hd
        have hd2 : d ^ 2 ≤ 0 := by nlinarith
        have hd0 : d = 0 := by
          have := le_antisymm hd2 (sq_nonneg d)
          exact sq_eq_zero_iff.mp this
        rw [hd0, ← hB0]
        nlinarith [mul_nonneg hA (sq_nonneg y)]
      · nlinarith [sq_nonneg (x * B - y * d), mul_nonneg (sq_nonneg y) (sub_nonneg.mpr hd),
          mul_nonneg hBpos.le (sub_nonneg.mpr hd), hBpos, hd]

theorem dotProduct_self (a : List ℝ) : dotProduct a a = (a.map (fun x => x * x)).sum := by
  induction a with
  | nil => simp [dotProduct]
  | cons x xs ih =>
    have h : dotProduct (x :: xs) (x :: xs) = x * x + dotProduct xs xs := by
      simp [dotProduct]
    rw [h, ih]
    simp

theorem dotProduct_neg (a : List ℝ) :
    dotProduct a (a.map (fun x => -x)) = -((a.map (fun x => x * x)).sum) := by
  induction a with
  | nil => simp [dotProduct]
  | cons x xs ih =>
    have h : dotProduct (x :: xs) ((x :: xs).map (fun t => -t)) =
        x * (-x) + dotProduct xs (xs.map (fun t => -t)) := by
      simp [dotProduct]
    rw [h, ih]
    simp only [List.map_cons, List.sum_cons]
    ring

theorem vecNorm_neg (a : List ℝ) : vecNorm (a.map (fun x => -x)) = vecNorm a := by
  have h : (a.map (fun x => -x)).map (fun x => x * x) = a.map (fun x => x * x) := by
    rw [List.map_map]
    apply List.map_congr_left
    intro x _
    simp
  rw [vecNorm, vecNorm, h]

theorem vecNorm_nonneg (a : List ℝ) : 0 ≤ vecNorm a := Real.sqrt_nonneg _

theorem sumSq_pos_of_vecNorm_ne (a : List ℝ) (h : vecNorm a ≠ 0) :
    0 < (a.map (fun x => x * x)).sum := by
  by_contra hc
  push_neg at hc
  exact h (Real.sqrt_eq_zero'.mpr hc)

theorem vecNorm_mul_self (a : List ℝ) : vecNorm a * vecNorm a = (a.map (fun x => x * x)).sum :=
  Real.mul_self_sqrt (sumSq_nonneg a)

/-- C6 (amended): `cosine_similarity` returns 0 on length mismatch, on
empty input, on a zero norm, or when the dot product is 0 (orthogonal
inputs); otherwise it is `dot/(‖a‖·‖b‖)`; the result always lies in
`[-1, 1]`; and `cos(a,a) = 1` and `cos(a,-a) = -1` whenever `a`'s norm
is nonzero (the zero vector yields 0, not 1 — see the
counterexample). -/
theorem cosine_similarity_spec :
    (∀ a b : List ℝ, a.length ≠ b.length → cosine_similarity a b = 0) ∧
    (∀ b : List ℝ, cosine_similarity [] b = 0) ∧
    (∀ a b : List ℝ, vecNorm a = 0 ∨ vecNorm b = 0 → cosine_similarity a b = 0) ∧
    (∀ a b : List ℝ, a.length = b.length → a ≠ [] → vecNorm a ≠ 0 → vecNorm b ≠ 0 →
        cosine_similarity a b = dotProduct a b / (vecNorm a * vecNorm b)) ∧
    (∀ a b : List ℝ, -1 ≤ cosine_similarity a b ∧ cosine_similarity a b ≤ 1) ∧
    (∀ a : List ℝ, vecNorm a ≠ 0 → cosine_similarity a a = 1) ∧
    (∀ a : List ℝ, vecNorm a ≠ 0 → cosine_similarity a (a.map (fun x => -x)) = -1) ∧
    (∀ a b : List ℝ, dotProduct a b = 0 → cosine_similarity a b = 0) := by
  have hne : ∀ a : List ℝ, vecNorm a ≠ 0 → a ≠ [] := by
    intro a h hcon
    subst hcon
    exact h (by simp [vecNorm])
  have hmain : ∀ a b : List ℝ, ¬(a.length ≠ b.length ∨ a = []) →
      ¬(vecNorm a = 0 ∨ vecNorm b = 0) →
      cosine_similarity a b = dotProduct a b / (vecNorm a * vecNorm b) := by
    intro a b h1 h2
    rw [cosine_similarity, if_neg h1, if_neg h2]
  refine ⟨?_, ?_, ?_, ?_, ?_, ?_, ?_, ?_⟩
  · intro a b h
    rw [cosine_similarity, if_pos (Or.inl h)]
  · intro b
    rw [cosine_similarity, if_pos (Or.inr rfl)]
  · intro a b h
    by_cases h1 : a.length ≠ b.length ∨ a = []
    · rw [cosine_similarity, if_pos h1]
    · rw [cosine_similarity, if_neg h1, if_pos h]
  · intro a b h1 h2 h3 h4
    exact hmain a b (by push_neg; exact ⟨h1, h2⟩) (by push_neg; exact ⟨h3, h4⟩)
  · intro a b
    by_cases h1 : a.length ≠ b.length ∨ a = []
    · rw [cosine_similarity, if_pos h1]; norm_num
    · by_cases h2 : vecNorm a = 0 ∨ vecNorm b = 0
      · rw [cosine_similarity, if_neg h1, if_pos h2]; norm_num
      · rw [hmain a b h1 h2]
        push_neg at h2
        have hna : 0 < vecNorm a := lt_of_le_of_ne (vecNorm_nonneg a) (Ne.symm h2.1)
        have hnb : 0 < vecNorm b := lt_of_le_of_ne (vecNorm_nonneg b) (Ne.symm h2.2)
        have hpos : 0 < vecNorm a * vecNorm b := mul_pos hna hnb
        have hcs := dot_sq_le_sumSq_mul a b
        have habs : |dotProduct a b| ≤ vecNorm a * vecNorm b := by
          have h5 : |dotProduct a b| = Real.sqrt ((dotProduct a b) ^ 2) :=
            (Real.sqrt_sq_eq_abs _).symm
          have h6 : vecNorm a * vecNorm b =
              Real.sqrt (((a.map (fun x => x * x)).sum) * ((b.map (fun x => x * x)).sum)) := by
            rw [Real.sqrt_mul (sumSq_nonneg a)]
            rfl
          rw [h5, h6]
          exact Real.sqrt_le_sqrt hcs
        have : |dotProduct a b / (vecNorm a * vecNorm b)| ≤ 1 := by
          rw [abs_div, abs_of_pos hpos]
          exact (div_le_one hpos).mpr habs
        exact abs_le.mp this
  · intro a h
    have h0 := sumSq_pos_of_vecNorm_ne a h
    rw [hmain a a (by push_neg; exact ⟨rfl, hne a h⟩) (by push_neg; exact ⟨h, h⟩)]
    rw [dotProduct_self, vecNorm_mul_self]
    exact div_self (ne_of_gt h0)
  · intro a h
    have h0 := sumSq_pos_of_vecNorm_ne a h
    have hl : a.length = (a.map (fun x => -x)).length := by simp
    have hnn : vecNorm (a.map (fun x => -x)) ≠ 0 := by
      rw [vecNorm_neg]; exact h
    rw [hmain a (a.map (fun x => -x))
      (by push_neg; exact ⟨hl, hne a h⟩) (by push_neg; exact ⟨h, hnn⟩)]
    rw [dotProduct_neg, vecNorm_neg, vecNorm_mul_self]
    rw [neg_div]
    rw [div_self (ne_of_gt h0)]
  · intro a b h
    by_cases h1 : a.length ≠ b.length ∨ a = []
    · rw [cosine_similarity, if_pos h1]
    · by_cases h2 : vecNorm a = 0 ∨ vecNorm b = 0
      · rw [cosine_similarity, if_neg h1, if_pos h2]
      · rw [hmain a b h1 h2, h, zero_div]

/-- C6 counterexample: the zero vector is equal-length with itself,
yet `cosine_similarity([0],[0]) = 0`, not 1 as the claim's unqualified
`cos(a,a) == 1` asserts. -/
theorem cosine_zero_vector_cex :
    cosine_similarity [(0:ℝ)] [(0:ℝ)] = 0 ∧ (0:ℝ) ≠ 1 := by
  constructor
  · have h : vecNorm [(0:ℝ)] = 0 := by
      rw [vecNorm]
      norm_num
    rw [cosine_similarity, if_neg (by norm_num), if_pos (Or.inl h)]
  · norm_num

/-- C6 witness: the amended theorem applied at `a = [1,0,0]`. -/
theorem cosine_similarity_spec_witness :
    vecNorm [(1:ℝ), 0, 0] ≠ 0 ∧ cosine_similarity [(1:ℝ), 0, 0] [(1:ℝ), 0, 0] = 1 := by
  have h : vecNorm [(1:ℝ), 0, 0] = 1 := by
    rw [vecNorm]
    norm_num
  exact ⟨by rw [h]; norm_num, cosine_similarity_spec.2.2.2.2.2.1 [(1:ℝ), 0, 0] (by rw [h]; norm_num)⟩

theorem mem_dropWhile_of_not {p : Char → Bool} : ∀ (l : List Char) (c : Char),
    c ∈ l → p c = false → c ∈ l.dropWhile p := by
  intro l
  induction l with
  | nil => intro c hc _; simp at hc
  | cons x xs ih =>
    intro c hc hpc
    rw [List.dropWhile_cons]
    by_cases hx : p x
    · rw [if_pos hx]
      rcases List.mem_cons.mp hc with rfl | hc2
      · rw [hx] at hpc; simp at hpc
      · exact ih c hc2 hpc
    · rw [if_neg hx]
      exact hc

theorem trim_ne_nil_of_mem {c : Char} {l : List Char} (hc : c ∈ l) (hw : isWs c = false) :
    trim l ≠ [] := by
  apply List.ne_nil_of_mem (a := c)
  rw [trim, List.mem_reverse]
  apply mem_dropWhile_of_not _ c _ hw
  rw [List.mem_reverse]
  exact mem_dropWhile_of_not _ c hc hw

theorem exists_not_ws_of_trim_ne_nil {l : List Char} (h : trim l ≠ []) :
    ∃ c ∈ l, isWs c = false := by
  by_contra hc
  push_neg at hc
  apply h
  rw [trim]
  have h1 : l.dropWhile isWs = [] := by
    rw [List.dropWhile_eq_nil_iff]
    intro a ha
    have := hc a ha
    simp at this ⊢
    exact this
  rw [h1]
  simp

theorem mem_intersperse_of_mem {α : Type} (sep : α) : ∀ (L : List α) (x : α),
    x ∈ L → x ∈ L.intersperse sep := by
  intro L
  induction L with
  | nil => intro x hx; simp at hx
  | cons y ys ih =>
    intro x hx
    cases ys with
    | nil =>
      simpa using hx
    | cons z zs =>
      rw [List.intersperse_cons₂]
      rcases List.mem_cons.mp hx with rfl | hx2
      · exact List.mem_cons_self _ _
      · exact List.mem_cons_of_mem _ (List.mem_cons_of_mem _ (ih x hx2))

theorem mem_joinSpace_of_mem {c : Char} {x : List Char} {L : List (List Char)}
    (hx : x ∈ L) (hc : c ∈ x) : c ∈ joinSpace L := by
  rw [joinSpace, List.intercalate]
  rw [List.mem_flatten]
  exact ⟨x, mem_intersperse_of_mem _ _ x hx, hc⟩

theorem trim_joinSpace_ne_nil {x : List Char} {L : List (List Char)}
    (hx : x ∈ L) (htx : trim x ≠ []) : trim (joinSpace L) ≠ [] := by
  obtain ⟨c, hcx, hcw⟩ := exists_not_ws_of_trim_ne_nil htx
  exact trim_ne_nil_of_mem (mem_joinSpace_of_mem hx hcx) hcw

-- temporalLoop lemmas
theorem temporalLoop_start_le (segs : List TranscriptSegment) (target total : ℚ)
    (htgt : 0 ≤ target) : ∀ (fuel : Nat) (s : ℚ) (o : ℤ),
    ∀ c ∈ temporalLoop segs target total fuel s o, s ≤ c.start_seconds := by
  intro fuel
  induction fuel with
  | zero => intro s o c hc; simp [temporalLoop] at hc
  | succ fuel ih =>
    intro s o c hc
    rw [temporalLoop] at hc
    by_cases hs : s < total
    · rw [if_pos hs] at hc
      simp only at hc
      have hse : s ≤ min (s + target) total := le_min (by linarith) (le_of_lt hs)
      by_cases hcc : trim (joinSpace ((segs.filter
          (fun seg => decide (seg.start_seconds < min (s + target) total) &&
            decide (seg.end_seconds > s))).map (·.text))) ≠ []
      · rw [if_pos hcc] at hc
        rcases List.mem_cons.mp hc with rfl | hc2
        · simp [ContentChunk.new]
        · exact le_trans hse (ih _ _ c hc2)
      · rw [if_neg hcc] at hc
        exact le_trans hse (ih _ _ c hc)
    · rw [if_neg hs] at hc
      simp at hc

theorem temporalLoop_sorted (segs : List TranscriptSegment) (target total : ℚ)
    (htgt : 0 ≤ target) : ∀ (fuel : Nat) (s : ℚ) (o : ℤ),
    (temporalLoop segs target total fuel s o).Pairwise
      (fun a b => a.start_seconds ≤ b.start_seconds) := by
  intro fuel
  induction fuel with
  | zero => intro s o; simp [temporalLoop]
  | succ fuel ih =>
    intro s o
    rw [temporalLoop]
    by_cases hs : s < total
    · rw [if_pos hs]
      simp only
      have hse : s ≤ min (s + target) total := le_min (by linarith) (le_of_lt hs)
      by_cases hcc : trim (joinSpace ((segs.filter
          (fun seg => decide (seg.start_seconds < min (s + target) total) &&
            decide (seg.end_seconds > s))).map (·.text))) ≠ []
      · rw [if_pos hcc]
        refine List.Pairwise.cons ?_ (ih _ _)
        intro c hc
        have := temporalLoop_start_le segs target total htgt fuel _ _ c hc
        simp [ContentChunk.new]
        linarith
      · rw [if_neg hcc]
        exact ih _ _
    · rw [if_neg hs]
      simp



theorem temporalLoop_orders (segs : List TranscriptSegment) (target total : ℚ) :
    ∀ (fuel : Nat) (s : ℚ) (o : ℤ),
    (temporalLoop segs target total fuel s o).map (·.order) =
      (List.range (temporalLoop segs target total fuel s o).length).map
        (fun i => o + Int.ofNat i) := by
  intro fuel
  induction fuel with
  | zero => intro s o; simp [temporalLoop]
  | succ fuel ih =>
    intro s o
    rw [temporalLoop]
    by_cases hs : s < total
    · rw [if_pos hs]
      simp only
      by_cases hcc : trim (joinSpace ((segs.filter
          (fun seg => decide (seg.start_seconds < min (s + target) total) &&
            decide (seg.end_seconds > s))).map (·.text))) ≠ []
      · rw [if_pos hcc]
        rw [List.map_cons, ih, List.length_cons, List.range_succ_eq_map, List.map_cons,
          List.map_map]
        congr 1
        · simp [ContentChunk.new]
        · apply List.map_congr_left
          intro i _
          simp [Function.comp, Int.ofNat_succ]
          ring
      · rw [if_neg hcc]
        exact ih _ _
    · rw [if_neg hs]
      simp [temporalLoop]

theorem temporalLoop_ne_nil (segs : List TranscriptSegment) (target total : ℚ)
    (seg : TranscriptSegment) (hseg : seg ∈ segs) (htext : trim seg.text ≠ [])
    (hlt : seg.start_seconds < seg.end_seconds) (hstot : seg.start_seconds < total) :
    ∀ (fuel : Nat) (s : ℚ) (o : ℤ), s < total → total - s ≤ fuel * target →
      s < seg.end_seconds → temporalLoop segs target total fuel s o ≠ [] := by
  intro fuel
  induction fuel with
  | zero =>
    intro s o hs hb _
    exfalso
    simp at hb
    linarith
  | succ fuel ih =>
    intro s o hs hb hse
    rw [temporalLoop, if_pos hs]
    simp only
    by_cases hcc : trim (joinSpace ((segs.filter
        (fun sg => decide (sg.start_seconds < min (s + target) total) &&
          decide (sg.end_seconds > s))).map (·.text))) ≠ []
    · rw [if_pos hcc]
      exact List.cons_ne_nil _ _
    · rw [if_neg hcc]
      push_neg at hcc
      -- the witness segment cannot overlap this window, else the content were non-blank
      have hnov : ¬ (seg.start_seconds < min (s + target) total) := by
        intro hov
        have hmem : seg ∈ segs.filter
            (fun sg => decide (sg.start_seconds < min (s + target) total) &&
              decide (sg.end_seconds > s)) := by
          rw [List.mem_filter]
          refine ⟨hseg, ?_⟩
          simp [hov, hse]
        exact (trim_joinSpace_ne_nil (List.mem_map_of_mem (·.text) hmem) htext) hcc
      push_neg at hnov
      have hemin : min (s + target) total = s + target := by
        rcases min_cases (s + target) total with ⟨hmeq, _⟩ | ⟨hmeq, hmlt⟩
        · exact hmeq
        · exfalso
          rw [hmeq] at hnov
          linarith
      rw [hemin] at hnov ⊢
      have h1 : s + target < total := by linarith
      have h2 : total - (s + target) ≤ fuel * target := by
        push_cast at hb ⊢
        linarith
      have h3 : s + target < seg.end_seconds := by linarith
      exact ih (s + target) o h1 h2 h3

theorem mergeIntoLast_orders (content : List Char) (e : ℚ) : ∀ (l : List ContentChunk),
    (mergeIntoLast content e l).map (·.order) = l.map (·.order) := by
  intro l
  induction l with
  | nil => simp [mergeIntoLast]
  | cons c rest ih =>
    cases rest with
    | nil => simp [mergeIntoLast]
    | cons d ds =>
      have h : mergeIntoLast content e (c :: d :: ds) = c :: mergeIntoLast content e (d :: ds) :=
        rfl
      rw [h, List.map_cons, List.map_cons, ih]

theorem buildChunksGo_orders (t : Transcript) (config : ChunkingConfig) :
    ∀ (pairs : List (Nat × LLMSection)) (chunks : List ContentChunk),
      (pairs.map Prod.fst).Pairwise (· < ·) →
      (∀ p ∈ pairs, ∀ c ∈ chunks, c.order < (p.1 : ℤ)) →
      ((chunks.map (·.order)).Chain' (· < ·)) →
      ((buildChunksGo t config pairs chunks).map (·.order)).Chain' (· < ·) := by
  intro pairs
  induction pairs with
  | nil => intro chunks _ _ hc; simpa [buildChunksGo] using hc
  | cons p rest ih =>
    intro chunks hpw hlt hc
    obtain ⟨order, sec⟩ := p
    simp only [buildChunksGo]
    rw [List.map_cons, List.pairwise_cons] at hpw
    by_cases h1 : trim (t.text_between sec.start_seconds sec.end_seconds) = []
    · rw [if_pos h1]
      exact ih chunks hpw.2 (fun q hq c hcm => hlt q (List.mem_cons_of_mem _ hq) c hcm) hc
    · rw [if_neg h1]
      by_cases h2 : sec.end_seconds - sec.start_seconds < (config.min_duration : ℚ) ∧
          chunks ≠ []
      · rw [if_pos h2]
        apply ih _ hpw.2 ?_ ?_
        · intro q hq c hcm
          have hmm : c.order ∈ (mergeIntoLast (t.text_between sec.start_seconds
              sec.end_seconds) sec.end_seconds chunks).map (·.order) :=
            List.mem_map_of_mem (·.order) hcm
          rw [mergeIntoLast_orders] at hmm
          obtain ⟨c2, hc2, heq⟩ := List.mem_map.mp hmm
          rw [← heq]
          calc c2.order < (order : ℤ) := hlt (order, sec) (List.mem_cons_self _ _) c2 hc2
            _ ≤ (q.1 : ℤ) := by exact_mod_cast Int.ofNat_le.mpr (le_of_lt (hpw.1 q.1
              (List.mem_map_of_mem Prod.fst hq)))
        · rw [mergeIntoLast_orders]
          exact hc
      · rw [if_neg h2]
        apply ih _ hpw.2 ?_ ?_
        · intro q hq c hcm
          rcases List.mem_append.mp hcm with hcm | hcm
          · calc c.order < (order : ℤ) := hlt (order, sec) (List.mem_cons_self _ _) c hcm
              _ ≤ (q.1 : ℤ) := by exact_mod_cast Int.ofNat_le.mpr (le_of_lt (hpw.1 q.1
                (List.mem_map_of_mem Prod.fst hq)))
          · simp at hcm
            rw [hcm]
            simp [ContentChunk.new]
            exact_mod_cast hpw.1 q.1 (List.mem_map_of_mem Prod.fst hq)
        · rw [List.map_append]
          rw [List.chain'_append]
          refine ⟨hc, by simp, ?_⟩
          intro x hx y hy
          simp at hy
          rw [← hy]
          simp [ContentChunk.new]
          obtain ⟨c2, hc2, heq⟩ := List.mem_map.mp (List.mem_of_mem_getLast? hx)
          rw [← heq]
          exact hlt (order, sec) (List.mem_cons_self _ _) c2 hc2

theorem build_chunks_orders (sections : List LLMSection) (t : Transcript)
    (config : ChunkingConfig) :
    ((build_chunks sections t config).map (·.order)).Chain' (· < ·) := by
  rw [build_chunks]
  apply buildChunksGo_orders
  · rw [List.enum_map_fst]
    exact List.pairwise_lt_range _
  · intro p _ c hc
    simp at hc
  · simp

theorem temporal_chunk_sorted (t : Transcript) (config : ChunkingConfig) :
    (temporal_chunk t config).Pairwise (fun a b => a.start_seconds ≤ b.start_seconds) := by
  rw [temporal_chunk]
  by_cases h : t.segments = []
  · rw [if_pos h]
    simp
  · rw [if_neg h]
    exact temporalLoop_sorted _ _ _ (Nat.cast_nonneg _) _ _ _

theorem temporal_chunk_orders (t : Transcript) (config : ChunkingConfig) :
    (temporal_chunk t config).map (·.order) =
      (List.range (temporal_chunk t config).length).map Int.ofNat := by
  rw [temporal_chunk]
  by_cases h : t.segments = []
  · rw [if_pos h]
    simp
  · rw [if_neg h]
    rw [temporalLoop_orders]
    apply List.map_congr_left
    intro i _
    simp

theorem temporal_chunk_ne_nil (t : Transcript) (config : ChunkingConfig)
    (seg : TranscriptSegment) (htgt : 0 < config.target_duration)
    (hdur : 0 < t.duration_seconds) (hseg : seg ∈ t.segments)
    (htext : trim seg.text ≠ []) (hlt : seg.start_seconds < seg.end_seconds)
    (hstot : seg.start_seconds < t.duration_seconds) (hend : 0 < seg.end_seconds) :
    temporal_chunk t config ≠ [] := by
  have hsegs : t.segments ≠ [] := List.ne_nil_of_mem hseg
  rw [temporal_chunk, if_neg hsegs]
  have htgtQ : (0:ℚ) < (config.target_duration : ℚ) := by exact_mod_cast htgt
  apply temporalLoop_ne_nil _ _ _ seg hseg htext hlt hstot _ _ _ hdur _ hend
  have hfuel : temporalFuel (config.target_duration : ℚ) t.duration_seconds =
      (⌈t.duration_seconds / (config.target_duration : ℚ)⌉).toNat + 1 := by
    rw [temporalFuel, if_neg (not_le.mpr htgtQ)]
  rw [hfuel]
  have hceil : t.duration_seconds / (config.target_duration : ℚ) ≤
      (⌈t.duration_seconds / (config.target_duration : ℚ)⌉ : ℚ) := Int.le_ceil _
  have hcpos : 0 < ⌈t.duration_seconds / (config.target_duration : ℚ)⌉ :=
    Int.ceil_pos.mpr (div_pos hdur htgtQ)
  have hle : t.duration_seconds ≤
      (⌈t.duration_seconds / (config.target_duration : ℚ)⌉ : ℚ) * (config.target_duration : ℚ) :=
    (div_le_iff₀ htgtQ).mp hceil
  have h9 : (((⌈t.duration_seconds / (config.target_duration : ℚ)⌉).toNat : ℕ) : ℚ) =
      (⌈t.duration_seconds / (config.target_duration : ℚ)⌉ : ℚ) := by
    exact_mod_cast congrArg (fun z : ℤ => (z : ℚ)) (Int.toNat_of_nonneg hcpos.le)
  have hcast : ((((⌈t.duration_seconds / (config.target_duration : ℚ)⌉).toNat + 1 : ℕ)) : ℚ) =
      (⌈t.duration_seconds / (config.target_duration : ℚ)⌉ : ℚ) + 1 := by
    push_cast
    rw [h9]
  rw [hcast]
  nlinarith

/-- C3 (amended): the temporal chunker returns chunks sorted by
`start_seconds` with `order` dense from 0 (the i-th chunk has order i),
and — when the target is positive, the duration positive and some
segment with a positive-length span overlapping `(0, duration)` has
non-whitespace text — at least one chunk.  ("duration ≥ min" alone does
NOT guarantee a chunk: see the counterexample.)  The semantic chunker's
`build_chunks` gives its chunks strictly increasing `order` fields (the
index of the originating LLM section), but they are not dense from 0
and the chunks follow the LLM's section order. -/
theorem chunker_order_spec :
    (∀ (t : Transcript) (config : ChunkingConfig),
        ((temporal_chunk t config).Pairwise
          (fun a b => a.start_seconds ≤ b.start_seconds)) ∧
        ((temporal_chunk t config).map (·.order) =
          (List.range (temporal_chunk t config).length).map Int.ofNat)) ∧
    (∀ (t : Transcript) (config : ChunkingConfig) (seg : TranscriptSegment),
        0 < config.target_duration → 0 < t.duration_seconds → seg ∈ t.segments →
        trim seg.text ≠ [] → seg.start_seconds < seg.end_seconds →
        seg.start_seconds < t.duration_seconds → 0 < seg.end_seconds →
        temporal_chunk t config ≠ []) ∧
    (∀ (sections : List LLMSection) (t : Transcript) (config : ChunkingConfig),
        ((build_chunks sections t config).map (·.order)).Chain' (· < ·)) :=
  ⟨fun t config => ⟨temporal_chunk_sorted t config, temporal_chunk_orders t config⟩,
    fun t config seg h1 h2 h3 h4 h5 h6 h7 =>
      temporal_chunk_ne_nil t config seg h1 h2 h3 h4 h5 h6 h7,
    fun sections t config => build_chunks_orders sections t config⟩

/-- C3 witness: the nonemptiness part applied to a concrete one-segment
transcript and a positive target. -/
theorem chunker_order_spec_witness :
    (0 < demoCfg.target_duration ∧ 0 < exShortT.duration_seconds ∧
      (⟨0, 30, ['A']⟩ : TranscriptSegment) ∈ exShortT.segments ∧
      trim ((⟨0, 30, ['A']⟩ : TranscriptSegment)).text ≠ []) ∧
    temporal_chunk exShortT demoCfg ≠ [] :=
  ⟨⟨by decide, by norm_num [exShortT, Transcript.new], by decide, by decide⟩,
    chunker_order_spec.2.1 exShortT demoCfg ⟨0, 30, ['A']⟩ (by decide)
      (by norm_num [exShortT, Transcript.new]) (by decide) (by decide)
      (by norm_num) (by norm_num [exShortT, Transcript.new]) (by norm_num)⟩

/-- C3 counterexample: a transcript whose only segment's text is
whitespace, with `max ≥ min ≥ 0` and `duration ≥ min`, yields zero
chunks from the temporal chunker — "at least one chunk when
duration ≥ min" fails. -/
theorem chunker_min_duration_cex :
    temporal_chunk wsT wsCfg = [] ∧
    wsCfg.min_duration ≤ wsCfg.max_duration ∧
    ((wsCfg.min_duration : Nat) : ℚ) ≤ wsT.duration_seconds := by
  refine ⟨?_, by decide, by norm_num [wsT, wsCfg, Transcript.new]⟩
  have hceil : (⌈(2:ℚ)⌉ : ℤ) = 2 := by norm_num
  have hfuel : temporalFuel ((5:Nat) : ℚ) ((10:ℚ)) = 3 := by
    rw [temporalFuel]
    rw [if_neg (by norm_num)]
    norm_num
    decide
  have hws : trim [' '] = [] := by decide
  simp only [temporal_chunk, wsT, wsCfg, Transcript.new]
  norm_num [hfuel, temporalLoop, List.filter, joinSpace, List.intercalate,
    List.intersperse, hws, List.cons_ne_nil]

theorem applyExtension_eq_specExtend : ∀ (l : List FusedSegment) (segment_end : ℚ),
    applyExtension segment_end l = specExtend segment_end l := by
  intro l
  induction l with
  | nil => intro segment_end; rfl
  | cons s rest ih =>
    intro segment_end
    cases rest with
    | nil =>
      rw [applyExtension, specExtend]
      simp only [List.getLast?_singleton, List.dropLast_single]
      by_cases h : s.end_seconds < segment_end - 1
      · rw [if_pos h, if_pos h]
        simp
      · rw [if_neg h, if_neg h]
    | cons t ts =>
      have h1 : applyExtension segment_end (s :: t :: ts) =
          s :: applyExtension segment_end (t :: ts) := rfl
      rw [h1, ih]
      rw [specExtend, specExtend]
      have h2 : (s :: t :: ts).getLast? = (t :: ts).getLast? := by
        rw [List.getLast?_cons_cons]
      rw [h2]
      cases hg : (t :: ts).getLast? with
      | none => simp at hg
      | some x =>
        simp only
        by_cases h : x.end_seconds < segment_end - 1
        · rw [if_pos h, if_pos h]
          rw [List.dropLast_cons₂]
          simp
        · rw [if_neg h, if_neg h]

theorem alignLoop_eq_walk (words : List WhisperWord) (offset : ℚ) (hw : words ≠ []) :
    ∀ (sentences : List (List Char)) (idx : Nat),
      alignLoop words words.length offset sentences idx =
        alignWalk words offset sentences idx := by
  have hlen : 0 < words.length := List.length_pos.mpr hw
  intro sentences
  induction sentences with
  | nil => intro idx; rfl
  | cons sentence rest ih =>
    intro idx
    rw [alignLoop, alignWalk]
    by_cases hn : (splitWs sentence).length = 0
    · rw [if_pos hn, if_pos hn, ih]
    · rw [if_neg hn, if_neg hn]
      simp only
      rw [ih]
      have hn1 : 1 ≤ (splitWs sentence).length := Nat.one_le_iff_ne_zero.mpr hn
      have hidx : min (idx + (splitWs sentence).length) words.length - 1 =
          min (idx + (splitWs sentence).length - 1) (words.length - 1) := by omega
      have hrange : min (idx + (splitWs sentence).length - 1) (words.length - 1) <
          words.length := by omega
      congr 1
      rw [specWordStart, specWordEnd, hidx, List.getElem?_eq_getElem hrange]
      simp

/-- C1 (amended): for word lists and texts with at least one word and
one sentence, `align_by_position` is exactly the claimed walk —
sentence k consumes `N_k = (split_whitespace sentence_k).count`
word-timestamps, starting at `words[min(word_idx, last)].start` and
ending at `words[min(word_idx + N_k - 1, last)].end` — with two
adjustments the original claim omits: each sentence's end is raised to
`start + 0.1` when smaller, and the final segment's end is extended to
the last word's end when it falls more than one second short of it
(`alignSpec` states the amended walk).  The spec's two concrete
scenarios hold: the six-word "Hello world. This is a test." input
gives segments (0,1) and (1,2), and with offset 120 gives (120,121)
and (121,122). -/
theorem align_by_position_spec :
    (∀ (words : List WhisperWord) (text : List Char) (time_offset : ℚ),
        words ≠ [] → text ≠ [] → sentencesOf text ≠ [] →
        align_by_position words text time_offset = alignSpec words text time_offset) ∧
    (align_by_position exWords exText 0 =
      [⟨"Hello world.".toList, 0, 1⟩, ⟨"This is a test.".toList, 1, 2⟩]) ∧
    (align_by_position exWords exText 120 =
      [⟨"Hello world.".toList, 120, 121⟩, ⟨"This is a test.".toList, 121, 122⟩]) := by
  refine ⟨?_, ?_, ?_⟩
  · intro words text time_offset hw ht hs
    rw [align_by_position, alignSpec]
    rw [if_neg (by push_neg; exact ⟨hw, ht⟩)]
    simp only
    rw [if_neg hs]
    rw [alignLoop_eq_walk words time_offset hw, applyExtension_eq_specExtend]
  · have h1 : sentencesOf exText = ["Hello world".toList, "This is a test".toList] := by decide
    have h2 : (splitWs ("Hello world".toList)).length = 2 := by decide
    have h3 : (splitWs ("This is a test".toList)).length = 4 := by decide
    have hw : exWords ≠ [] := by decide
    have ht : exText ≠ [] := by decide
    rw [align_by_position]
    rw [if_neg (by push_neg; exact ⟨hw, ht⟩)]
    rw [h1]
    rw [if_neg (by decide)]
    rw [alignLoop]
    simp only [h2, h3, alignLoop]
    norm_num [exWords, lastWordEnd, applyExtension]
  · have h1 : sentencesOf exText = ["Hello world".toList, "This is a test".toList] := by decide
    have h2 : (splitWs ("Hello world".toList)).length = 2 := by decide
    have h3 : (splitWs ("This is a test".toList)).length = 4 := by decide
    have hw : exWords ≠ [] := by decide
    have ht : exText ≠ [] := by decide
    rw [align_by_position]
    rw [if_neg (by push_neg; exact ⟨hw, ht⟩)]
    rw [h1]
    rw [if_neg (by decide)]
    rw [alignLoop]
    simp only [h2, h3, alignLoop]
    norm_num [exWords, lastWordEnd, applyExtension]

/-- C1 witness: the general walk equality applied at the spec's
concrete fusion-alignment input. -/
theorem align_by_position_spec_witness :
    (exWords ≠ [] ∧ exText ≠ [] ∧ sentencesOf exText ≠ []) ∧
    align_by_position exWords exText 0 = alignSpec exWords exText 0 :=
  ⟨⟨by decide, by decide, by decide⟩,
    align_by_position_spec.1 exWords exText 0 (by decide) (by decide) (by decide)⟩

/-- C1 counterexample: with words ("Hello",0,0.5), ("world",0.5,1),
("again",1,2.5) and text "Hello world.", the claim's formula gives the
sentence end `words[min(0+2-1, last)].end = 1.0`, but the code extends
the final segment to the last word's end 2.5 (since 1.0 < 2.5 - 1.0),
so the returned segment is (0, 2.5), not (0, 1.0). -/
theorem align_extension_cex :
    align_by_position cexWords ("Hello world.".toList) 0 =
      [⟨"Hello world.".toList, 0, 2.5⟩] ∧
    specWordEnd cexWords (0 + 2 - 1) = 1 ∧
    (2.5 : ℚ) ≠ 1 := by
  refine ⟨?_, ?_, by norm_num⟩
  · have h1 : sentencesOf ("Hello world.".toList) = ["Hello world".toList] := by decide
    have h2 : (splitWs ("Hello world".toList)).length = 2 := by decide
    have hw : cexWords ≠ [] := by decide
    rw [align_by_position]
    rw [if_neg (by push_neg; exact ⟨hw, by decide⟩)]
    rw [h1]
    rw [if_neg (by decide)]
    rw [alignLoop]
    simp only [h2, alignLoop]
    norm_num [cexWords, lastWordEnd, applyExtension]
  · rw [specWordEnd]
    norm_num [cexWords]

end Lytt
